import Mathlib

/-!
Shallow embedding of the GoDeLin collection-utility library
(src/slice.go, src/godelin.go, src/map_ex.go) and verification of the
specification's claims about it.

Modelling conventions:
* Go slices are modelled as Lean `List`s (ordered, finite, index-addressable);
  a Go `nil` slice and a length-0 slice are both the empty list, since the
  library only observes slices through `len`, indexing, `range` and `append`.
* Go `int` values that can be negative (the `size`/`step`/`chunkSize`
  arguments) are modelled as `Int`.
* Go panics (both explicit `panic(...)` calls and runtime index-out-of-range
  faults) are modelled as `Except.error` with the panic message.
* The one loop that can fail to terminate (`Windowed`'s main loop, when
  `step <= 0`) is modelled with explicit fuel; `none` means the loop did not
  finish within the fuel bound.  The wrapper supplies fuel `s.length + 1`,
  which exceeds the iteration count of every terminating execution.
* Effectful Go callbacks (`func() V` closures, combiner closures) are
  modelled by explicit state passing: a callback of type `σ → ... → α × σ`
  threads an arbitrary caller-chosen state, which lets invocation counts be
  expressed (instantiate `σ := Nat` with a counter).
-/

namespace GoDeLin

/-- Model of `Pair` from slice.go: an immutable two-element tuple. -/
structure Pair (A B : Type) where
  Fst : A
  Snd : B
deriving Repr, DecidableEq

/-- Model of `TakeWhile` from slice.go: scan from the left while the predicate holds,
return the prefix `s[:i]` up to the first failing element. -/
def TakeWhile {T : Type} : List T → (T → Bool) → List T
  | [], _ => []
  | x :: xs, fn => if fn x then x :: TakeWhile xs fn else []

/-- Model of `DropWhile` from slice.go: scan from the left while the predicate holds,
return the suffix `s[i:]` starting at the first failing element. -/
def DropWhile {T : Type} : List T → (T → Bool) → List T
  | [], _ => []
  | x :: xs, fn => if fn x then DropWhile xs fn else x :: xs

/-- Model of `Zip` from slice.go: pairs elements of both slices at matching indices,
for indices `0 ≤ i < min (len s1) (len s2)`; written as the equivalent
structural recursion. -/
def Zip {A B : Type} : List A → List B → List (Pair A B)
  | a :: as_, b :: bs => ⟨a, b⟩ :: Zip as_ bs
  | _, _ => []

/-- Model of `Unzip` from slice.go: one pass over the pairs, appending the first
component to the first result and the second component to the second. -/
def Unzip {A B : Type} (ps : List (Pair A B)) : List A × List B :=
  (ps.map Pair.Fst, ps.map Pair.Snd)

/-- Model of `Map` from godelin.go: applies the transform to every element in order
(the Go function returns a length-0 slice for empty input). -/
def Map {A B : Type} : List A → (A → B) → List B
  | [], _ => []
  | x :: xs, fn => fn x :: Map xs fn

/-- Model of `Filter` from slice.go: retains, in order, the elements satisfying the
predicate. -/
def Filter {T : Type} : List T → (T → Bool) → List T
  | [], _ => []
  | x :: xs, fn => if fn x then x :: Filter xs fn else Filter xs fn

/-- Model of `FilterMap` from slice.go: single pass; `fn` returns the mapped value and
whether to keep it. -/
def FilterMap {A B : Type} : List A → (A → B × Bool) → List B
  | [], _ => []
  | x :: xs, fn =>
      let m := fn x
      if m.2 then m.1 :: FilterMap xs fn else FilterMap xs fn

/-- Model of `FlatMap` from slice.go: applies `fn` to every element and appends the
resulting slices in order. -/
def FlatMap {A B : Type} : List A → (A → List B) → List B
  | [], _ => []
  | x :: xs, fn => fn x ++ FlatMap xs fn

lemma zip_map_fst {A B : Type} :
    ∀ (a : List A) (b : List B),
      (Zip a b).map Pair.Fst = a.take (min a.length b.length)
  | [], _ => by simp [Zip]
  | _ :: _, [] => by simp [Zip]
  | x :: xs, y :: ys => by
      have hmin : (xs.length + 1) ⊓ (ys.length + 1) = xs.length ⊓ ys.length + 1 := by
        omega
      simp only [Zip, List.map_cons, List.length_cons, hmin,
        List.take_succ_cons, zip_map_fst xs ys]

lemma zip_map_snd {A B : Type} :
    ∀ (a : List A) (b : List B),
      (Zip a b).map Pair.Snd = b.take (min a.length b.length)
  | [], _ => by simp [Zip]
  | _ :: _, [] => by simp [Zip]
  | x :: xs, y :: ys => by
      have hmin : (xs.length + 1) ⊓ (ys.length + 1) = xs.length ⊓ ys.length + 1 := by
        omega
      simp only [Zip, List.map_cons, List.length_cons, hmin,
        List.take_succ_cons, zip_map_snd xs ys]

lemma zip_length {A B : Type} :
    ∀ (a : List A) (b : List B), (Zip a b).length = min a.length b.length
  | [], _ => by simp [Zip]
  | _ :: _, [] => by simp [Zip]
  | x :: xs, y :: ys => by
      have hmin : (xs.length + 1) ⊓ (ys.length + 1) = xs.length ⊓ ys.length + 1 := by
        omega
      simp [Zip, zip_length xs ys, hmin]

lemma zip_get? {A B : Type} :
    ∀ (a : List A) (b : List B) (i : Nat),
      (Zip a b).get? i =
        (a.get? i).bind fun x => (b.get? i).map fun y => Pair.mk x y
  | [], _, _ => by simp [Zip]
  | _ :: _, [], i => by cases i <;> simp [Zip]
  | x :: xs, y :: ys, 0 => by simp [Zip]
  | x :: xs, y :: ys, (i + 1) => by
      simpa [Zip] using zip_get? xs ys i

/-- C6: for all sequences `a`, `b`, `unzip (zip a b)` is the pair of prefixes
of `a` and `b` of length `min (len a) (len b)`; `zip`'s result has length
`min (len a) (len b)` and pairs elements by matching index. -/
theorem zip_unzip_spec (A B : Type) (a : List A) (b : List B) :
    Unzip (Zip a b) =
        (a.take (min a.length b.length), b.take (min a.length b.length))
    ∧ (Zip a b).length = min a.length b.length
    ∧ ∀ i : Nat,
        (Zip a b).get? i =
          (a.get? i).bind fun x => (b.get? i).map fun y => Pair.mk x y := by
  refine ⟨?_, zip_length a b, zip_get? a b⟩
  simp [Unzip, zip_map_fst, zip_map_snd]

/-- C8: `Map`, `Filter`, `FilterMap` and `FlatMap` applied to an empty input
sequence return an empty output sequence. -/
theorem empty_input_spec (A B : Type) (f : A → B) (p : A → Bool)
    (g : A → B × Bool) (h : A → List B) :
    Map [] f = [] ∧ Filter [] p = [] ∧ FilterMap [] g = [] ∧ FlatMap [] h = [] :=
  ⟨rfl, rfl, rfl, rfl⟩

lemma takeWhile_append_dropWhile {T : Type} :
    ∀ (s : List T) (p : T → Bool), TakeWhile s p ++ DropWhile s p = s
  | [], _ => rfl
  | x :: xs, p => by
      by_cases h : p x = true
      · simp [TakeWhile, DropWhile, h, takeWhile_append_dropWhile xs p]
      · simp [TakeWhile, DropWhile, h]

lemma mem_takeWhile_sat {T : Type} :
    ∀ (s : List T) (p : T → Bool) (x : T), x ∈ TakeWhile s p → p x = true
  | [], _, _ => by simp [TakeWhile]
  | y :: ys, p, x => by
      by_cases h : p y = true
      · simp only [TakeWhile, h, if_true, List.mem_cons]
        rintro (rfl | hx)
        · exact h
        · exact mem_takeWhile_sat ys p x hx
      · simp [TakeWhile, h]

/-- C10: for every sequence and predicate, `TakeWhile s p ++ DropWhile s p = s`,
and every element of `TakeWhile s p` satisfies `p`. -/
theorem takeWhile_dropWhile_spec (T : Type) (s : List T) (p : T → Bool) :
    TakeWhile s p ++ DropWhile s p = s
    ∧ ∀ x ∈ TakeWhile s p, p x = true :=
  ⟨takeWhile_append_dropWhile s p, fun x hx => mem_takeWhile_sat s p x hx⟩

/-- The loop of `Distinct` from slice.go: for each element, skip it when it
is in the `seen` set, otherwise record it as seen and append it to the
result.  The Go `map[T]struct\x7b\x7d` set is modelled as a list queried by
membership. -/
def distinctLoop {T : Type} [DecidableEq T] : List T → List T → List T
  | [], _ => []
  | e :: rest, seen =>
      if e ∈ seen then distinctLoop rest seen
      else e :: distinctLoop rest (e :: seen)

/-- Model of `Distinct` from slice.go: returns early for empty input, otherwise runs
the seen-set loop starting from an empty set. -/
def Distinct {T : Type} [DecidableEq T] (items : List T) : List T :=
  if items.length < 1 then [] else distinctLoop items []

lemma mem_distinctLoop {T : Type} [DecidableEq T] :
    ∀ (l seen : List T) (a : T),
      a ∈ distinctLoop l seen ↔ a ∈ l ∧ a ∉ seen
  | [], _, _ => by simp [distinctLoop]
  | e :: rest, seen, a => by
      by_cases he : e ∈ seen
      · simp only [distinctLoop, if_pos he, mem_distinctLoop rest seen a,
          List.mem_cons]
        constructor
        · rintro ⟨ha, hs⟩; exact ⟨Or.inr ha, hs⟩
        · rintro ⟨ha | ha, hs⟩
          · exact absurd (ha ▸ he) hs
          · exact ⟨ha, hs⟩
      · simp only [distinctLoop, if_neg he, List.mem_cons,
          mem_distinctLoop rest (e :: seen) a]
        constructor
        · rintro (rfl | ⟨ha, hs⟩)
          · exact ⟨Or.inl rfl, he⟩
          · exact ⟨Or.inr ha, fun h => hs (Or.inr h)⟩
        · rintro ⟨rfl | ha, hs⟩
          · exact Or.inl rfl
          · by_cases hae : a = e
            · exact Or.inl hae
            · exact Or.inr ⟨ha, by simp [List.mem_cons, hae, hs]⟩

lemma distinctLoop_nodup {T : Type} [DecidableEq T] :
    ∀ (l seen : List T), (distinctLoop l seen).Nodup
  | [], _ => by simp [distinctLoop]
  | e :: rest, seen => by
      by_cases he : e ∈ seen
      · simpa [distinctLoop, he] using distinctLoop_nodup rest seen
      · simp only [distinctLoop, if_neg he, List.nodup_cons]
        refine ⟨fun h => ?_, distinctLoop_nodup rest (e :: seen)⟩
        exact ((mem_distinctLoop rest (e :: seen) e).1 h).2 (List.mem_cons_self e seen)

lemma distinctLoop_sublist {T : Type} [DecidableEq T] :
    ∀ (l seen : List T), (distinctLoop l seen).Sublist l
  | [], _ => by simp [distinctLoop]
  | e :: rest, seen => by
      by_cases he : e ∈ seen
      · simpa [distinctLoop, he] using (distinctLoop_sublist rest seen).cons e
      · simpa [distinctLoop, he] using (distinctLoop_sublist rest (e :: seen)).cons₂ e

lemma distinctLoop_firstOccurrence {T : Type} [DecidableEq T] :
    ∀ (l seen : List T),
      (distinctLoop l seen).Pairwise (fun a b => l.indexOf a < l.indexOf b)
  | [], _ => by simp [distinctLoop]
  | e :: rest, seen => by
      by_cases he : e ∈ seen
      · simp only [distinctLoop, if_pos he]
        refine (distinctLoop_firstOccurrence rest seen).imp_of_mem ?_
        intro a b ha hb hlt
        have hane : a ≠ e := fun h =>
          ((mem_distinctLoop rest seen a).1 ha).2 (h ▸ he)
        have hbne : b ≠ e := fun h =>
          ((mem_distinctLoop rest seen b).1 hb).2 (h ▸ he)
        rw [List.indexOf_cons_ne _ (Ne.symm hane), List.indexOf_cons_ne _ (Ne.symm hbne)]
        omega
      · simp only [distinctLoop, if_neg he, List.pairwise_cons]
        constructor
        · intro b hb
          have hbne : b ≠ e := fun h =>
            ((mem_distinctLoop rest (e :: seen) b).1 hb).2
              (h ▸ List.mem_cons_self e seen)
          rw [List.indexOf_cons_self, List.indexOf_cons_ne _ (Ne.symm hbne)]
          omega
        · refine (distinctLoop_firstOccurrence rest (e :: seen)).imp_of_mem ?_
          intro a b ha hb hlt
          have hane : a ≠ e := fun h =>
            ((mem_distinctLoop rest (e :: seen) a).1 ha).2
              (h ▸ List.mem_cons_self e seen)
          have hbne : b ≠ e := fun h =>
            ((mem_distinctLoop rest (e :: seen) b).1 hb).2
              (h ▸ List.mem_cons_self e seen)
          rw [List.indexOf_cons_ne _ (Ne.symm hane), List.indexOf_cons_ne _ (Ne.symm hbne)]
          omega

lemma distinct_eq_loop {T : Type} [DecidableEq T] (items : List T) :
    Distinct items = distinctLoop items [] := by
  cases items <;> simp [Distinct, distinctLoop]

/-- C9: `Distinct s` has no duplicates, lists the retained elements in the
order of their first occurrence in `s` (its members are exactly the members
of `s`, kept as a subsequence whose first-occurrence positions increase),
and has length at most `len s`. -/
theorem distinct_spec (T : Type) [DecidableEq T] (s : List T) :
    (Distinct s).Nodup
    ∧ (∀ a : T, a ∈ Distinct s ↔ a ∈ s)
    ∧ (Distinct s).Sublist s
    ∧ (Distinct s).Pairwise (fun a b => s.indexOf a < s.indexOf b)
    ∧ (Distinct s).length ≤ s.length := by
  rw [distinct_eq_loop]
  refine ⟨distinctLoop_nodup s [], ?_, distinctLoop_sublist s [],
    distinctLoop_firstOccurrence s [], (distinctLoop_sublist s []).length_le⟩
  intro a
  simp [mem_distinctLoop s [] a]

/-- The loop of `ChunkedBy` from slice.go, over the elements after the first:
read the last element of the current chunk; if the grouping function accepts
(last, current) the element is appended to the current chunk, otherwise the
current chunk is closed and a new chunk started with the element.  The
`currentChunk` accumulator is nonempty in every reachable call, so the
`getLast?` read never takes the `none` branch (kept only for totality). -/
def chunkedByLoop {T : Type} (groupingFn : T → T → Bool) :
    List T → List (List T) → List T → List (List T)
  | [], resultChunks, currentChunk => resultChunks ++ [currentChunk]
  | currentElement :: rest, resultChunks, currentChunk =>
      match currentChunk.getLast? with
      | none => []
      | some lastElement =>
          if groupingFn lastElement currentElement then
            chunkedByLoop groupingFn rest resultChunks (currentChunk ++ [currentElement])
          else
            chunkedByLoop groupingFn rest (resultChunks ++ [currentChunk]) [currentElement]

/-- Model of `ChunkedBy` from slice.go: empty input yields no chunks; otherwise the
first element seeds the current chunk and the loop processes the rest. -/
def ChunkedBy {T : Type} (inputSlice : List T) (groupingFn : T → T → Bool) :
    List (List T) :=
  match inputSlice with
  | [] => []
  | x :: xs => chunkedByLoop groupingFn xs [] [x]

lemma chunkedByLoop_flatten {T : Type} (fn : T → T → Bool) :
    ∀ (rest : List T) (res : List (List T)) (cur : List T), cur ≠ [] →
      (chunkedByLoop fn rest res cur).flatten = res.flatten ++ cur ++ rest
  | [], res, cur, _ => by simp [chunkedByLoop]
  | e :: rest, res, cur, hcur => by
      obtain ⟨l, hl⟩ := List.getLast?_isSome.2 hcur |> Option.isSome_iff_exists.1
      rw [chunkedByLoop, hl]
      dsimp only
      by_cases hfn : fn l e = true
      · rw [if_pos hfn,
          chunkedByLoop_flatten fn rest res (cur ++ [e]) (by simp)]
        simp
      · rw [if_neg hfn,
          chunkedByLoop_flatten fn rest (res ++ [cur]) [e] (by simp)]
        simp

lemma chunkedByLoop_nonempty {T : Type} (fn : T → T → Bool) :
    ∀ (rest : List T) (res : List (List T)) (cur : List T), cur ≠ [] →
      (∀ r ∈ res, r ≠ []) →
      ∀ r ∈ chunkedByLoop fn rest res cur, r ≠ []
  | [], res, cur, hcur, hres => by
      simp only [chunkedByLoop]
      intro r hr
      rcases List.mem_append.1 hr with h | h
      · exact hres r h
      · simpa using List.mem_singleton.1 h ▸ hcur
  | e :: rest, res, cur, hcur, hres => by
      obtain ⟨l, hl⟩ := List.getLast?_isSome.2 hcur |> Option.isSome_iff_exists.1
      rw [chunkedByLoop, hl]
      dsimp only
      by_cases hfn : fn l e = true
      · rw [if_pos hfn]
        exact chunkedByLoop_nonempty fn rest res (cur ++ [e]) (by simp) hres
      · rw [if_neg hfn]
        refine chunkedByLoop_nonempty fn rest (res ++ [cur]) [e] (by simp) ?_
        intro r hr
        rcases List.mem_append.1 hr with h | h
        · exact hres r h
        · exact List.mem_singleton.1 h ▸ hcur

lemma chunkedByLoop_chain {T : Type} (fn : T → T → Bool) :
    ∀ (rest : List T) (res : List (List T)) (cur : List T), cur ≠ [] →
      (∀ r ∈ res, r.Chain' (fun a b => fn a b = true)) →
      cur.Chain' (fun a b => fn a b = true) →
      ∀ r ∈ chunkedByLoop fn rest res cur, r.Chain' (fun a b => fn a b = true)
  | [], res, cur, _, hres, hcur_ch => by
      simp only [chunkedByLoop]
      intro r hr
      rcases List.mem_append.1 hr with h | h
      · exact hres r h
      · exact List.mem_singleton.1 h ▸ hcur_ch
  | e :: rest, res, cur, hcur, hres, hcur_ch => by
      obtain ⟨l, hl⟩ := List.getLast?_isSome.2 hcur |> Option.isSome_iff_exists.1
      rw [chunkedByLoop, hl]
      dsimp only
      by_cases hfn : fn l e = true
      · rw [if_pos hfn]
        refine chunkedByLoop_chain fn rest res (cur ++ [e]) (by simp) hres ?_
        rw [List.chain'_append]
        refine ⟨hcur_ch, List.chain'_singleton e, ?_⟩
        intro x hx y hy
        rw [hl, Option.mem_some_iff] at hx
        subst hx
        simp only [List.head?_cons, Option.mem_some_iff] at hy
        subst hy
        exact hfn
      · rw [if_neg hfn]
        refine chunkedByLoop_chain fn rest (res ++ [cur]) [e] (by simp) ?_
          (List.chain'_singleton e)
        intro r hr
        rcases List.mem_append.1 hr with h | h
        · exact hres r h
        · exact List.mem_singleton.1 h ▸ hcur_ch

/-- Boundary relation between two consecutive runs: the grouping function
rejected (last element of the earlier run, first element of the later run). -/
def RunBoundary {T : Type} (fn : T → T → Bool) (r1 r2 : List T) : Prop :=
  ∀ a ∈ r1.getLast?, ∀ b ∈ r2.head?, fn a b = false

lemma runBoundary_extend {T : Type} (fn : T → T → Bool) (r c : List T) (e : T)
    (hc : c ≠ []) (h : RunBoundary fn r c) : RunBoundary fn r (c ++ [e]) := by
  intro a ha b hb
  obtain ⟨x, xs, rfl⟩ := List.exists_cons_of_ne_nil hc
  simp only [List.cons_append, List.head?_cons, Option.mem_some_iff] at hb
  exact h a ha b (by simp [← hb])

lemma chain_runBoundary_extend {T : Type} (fn : T → T → Bool)
    (res : List (List T)) (cur : List T) (e : T) (hcur : cur ≠ [])
    (h : List.Chain' (RunBoundary fn) (res ++ [cur])) :
    List.Chain' (RunBoundary fn) (res ++ [cur ++ [e]]) := by
  rw [List.chain'_append] at h ⊢
  refine ⟨h.1, List.chain'_singleton _, ?_⟩
  intro x hx y hy
  simp only [List.head?_cons, Option.mem_some_iff] at hy
  subst hy
  exact runBoundary_extend fn x cur e hcur (h.2.2 x hx cur (by simp))

lemma chunkedByLoop_boundary {T : Type} (fn : T → T → Bool) :
    ∀ (rest : List T) (res : List (List T)) (cur : List T), cur ≠ [] →
      List.Chain' (RunBoundary fn) (res ++ [cur]) →
      List.Chain' (RunBoundary fn) (chunkedByLoop fn rest res cur)
  | [], res, cur, _, hch => by simpa [chunkedByLoop] using hch
  | e :: rest, res, cur, hcur, hch => by
      obtain ⟨l, hl⟩ := List.getLast?_isSome.2 hcur |> Option.isSome_iff_exists.1
      rw [chunkedByLoop, hl]
      dsimp only
      by_cases hfn : fn l e = true
      · rw [if_pos hfn]
        exact chunkedByLoop_boundary fn rest res (cur ++ [e]) (by simp)
          (chain_runBoundary_extend fn res cur e hcur hch)
      · rw [if_neg hfn]
        refine chunkedByLoop_boundary fn rest (res ++ [cur]) [e] (by simp) ?_
        rw [List.chain'_append]
        refine ⟨hch, List.chain'_singleton _, ?_⟩
        intro x hx y hy
        rw [List.getLast?_concat, Option.mem_some_iff] at hx
        subst hx
        simp only [List.head?_cons, Option.mem_some_iff] at hy
        subst hy
        intro a ha b hb
        rw [hl, Option.mem_some_iff] at ha
        subst ha
        simp only [List.head?_cons, Option.mem_some_iff] at hb
        subst hb
        exact Bool.eq_false_iff.2 (fun h => hfn h)

/-- C7: `ChunkedBy` partitions the input into the runs built by the
left-to-right scan: concatenating the runs gives back the input (every
element in exactly one run), every run is nonempty, inside a run each
adjacent pair was accepted by the predicate, at each run boundary the
predicate rejected (last of previous run, first of next run), and empty
input gives an empty sequence of runs. -/
theorem chunkedBy_spec (T : Type) (s : List T) (fn : T → T → Bool) :
    (ChunkedBy s fn).flatten = s
    ∧ (∀ r ∈ ChunkedBy s fn, r ≠ [])
    ∧ (∀ r ∈ ChunkedBy s fn, r.Chain' (fun a b => fn a b = true))
    ∧ List.Chain' (RunBoundary fn) (ChunkedBy s fn)
    ∧ (s = [] → ChunkedBy s fn = []) := by
  match s with
  | [] => exact ⟨rfl, by simp [ChunkedBy], by simp [ChunkedBy], by simp [ChunkedBy], fun _ => rfl⟩
  | x :: xs =>
      refine ⟨?_, ?_, ?_, ?_, by simp⟩
      · rw [ChunkedBy, chunkedByLoop_flatten fn xs [] [x] (by simp)]
        simp
      · exact chunkedByLoop_nonempty fn xs [] [x] (by simp) (by simp)
      · exact chunkedByLoop_chain fn xs [] [x] (by simp) (by simp)
          (List.chain'_singleton x)
      · exact chunkedByLoop_boundary fn xs [] [x] (by simp) (by simp)

/-- The loop of `Chunked` from slice.go: starting at index 0 and advancing by
`size`, append the slice `input[start:min(start+size, total)]`.  Each
iteration emits `take size` of the remaining elements and recurses on the
rest; `(x :: xs).drop size` is written `xs.drop (size - 1)`, which agrees for
the `size ≥ 1` values the guarded caller passes and makes termination
evident. -/
def chunkGo {T : Type} : List T → Nat → List (List T)
  | [], _ => []
  | x :: xs, size => (x :: xs).take size :: chunkGo (xs.drop (size - 1)) size
termination_by l => l.length
decreasing_by
  simp only [List.length_drop, List.length_cons]
  omega

/-- Model of `Chunked` from slice.go: panics when `chunkSize ≤ 0`, otherwise splits
the input into consecutive chunks of at most `chunkSize` elements. -/
def Chunked {T : Type} (input : List T) (chunkSize : Int) :
    Except String (List (List T)) :=
  if chunkSize ≤ 0 then .error "chunkSize must be positive"
  else .ok (chunkGo input chunkSize.toNat)

lemma chunkGo_flatten_bounded {T : Type} (size : Nat) (hs : 1 ≤ size) :
    ∀ (n : Nat) (l : List T), l.length ≤ n → (chunkGo l size).flatten = l := by
  intro n
  induction n with
  | zero =>
      intro l hl
      rw [List.length_eq_zero.1 (Nat.le_zero.1 hl)]
      simp [chunkGo]
  | succ n ih =>
      intro l hl
      match l with
      | [] => simp [chunkGo]
      | x :: xs =>
          rw [chunkGo]
          simp only [List.flatten_cons]
          rw [ih (xs.drop (size - 1)) (by
            simp only [List.length_drop]
            simp only [List.length_cons] at hl
            omega)]
          obtain ⟨m, rfl⟩ : ∃ m, size = m + 1 := ⟨size - 1, by omega⟩
          simp only [Nat.add_sub_cancel, List.take_succ_cons, List.cons_append]
          rw [List.take_append_drop]

lemma chunkGo_flatten {T : Type} (size : Nat) (hs : 1 ≤ size) (l : List T) :
    (chunkGo l size).flatten = l :=
  chunkGo_flatten_bounded size hs l.length l le_rfl

lemma chunkGo_chunk_bounds_aux {T : Type} (size : Nat) (hs : 1 ≤ size) :
    ∀ (n : Nat) (l : List T), l.length ≤ n →
      ∀ c ∈ chunkGo l size, 1 ≤ c.length ∧ c.length ≤ size := by
  intro n
  induction n with
  | zero =>
      intro l hl
      rw [List.length_eq_zero.1 (Nat.le_zero.1 hl)]
      simp [chunkGo]
  | succ n ih =>
      intro l hl
      match l with
      | [] => simp [chunkGo]
      | x :: xs =>
          rw [chunkGo]
          intro c hc
          rcases List.mem_cons.1 hc with rfl | hc
          · constructor
            · simp only [List.length_take, List.length_cons]
              omega
            · simp [List.length_take]
          · exact ih (xs.drop (size - 1)) (by
              simp only [List.length_drop]
              simp only [List.length_cons] at hl
              omega) c hc

lemma chunkGo_chunk_bounds {T : Type} (size : Nat) (hs : 1 ≤ size)
    (l : List T) : ∀ c ∈ chunkGo l size, 1 ≤ c.length ∧ c.length ≤ size :=
  chunkGo_chunk_bounds_aux size hs l.length l le_rfl

lemma chunkGo_ne_nil_of_ne_nil {T : Type} (size : Nat) (l : List T)
    (h : l ≠ []) : chunkGo l size ≠ [] := by
  match l with
  | [] => exact absurd rfl h
  | x :: xs => rw [chunkGo]; simp

lemma chunkGo_dropLast_full_aux {T : Type} (size : Nat) (hs : 1 ≤ size) :
    ∀ (n : Nat) (l : List T), l.length ≤ n →
      ∀ c ∈ (chunkGo l size).dropLast, c.length = size := by
  intro n
  induction n with
  | zero =>
      intro l hl
      rw [List.length_eq_zero.1 (Nat.le_zero.1 hl)]
      simp [chunkGo]
  | succ n ih =>
      intro l hl
      match l with
      | [] => simp [chunkGo]
      | x :: xs =>
          rw [chunkGo]
          by_cases hrest : xs.drop (size - 1) = []
          · rw [hrest]
            simp [chunkGo]
          · intro c hc
            rw [List.dropLast_cons_of_ne_nil
              (chunkGo_ne_nil_of_ne_nil size _ hrest)] at hc
            rcases List.mem_cons.1 hc with rfl | hc
            · have hlen : size - 1 < xs.length := by
                by_contra hle
                exact hrest (List.drop_eq_nil_of_le (by omega))
              simp only [List.length_take, List.length_cons]
              omega
            · exact ih (xs.drop (size - 1)) (by
              simp only [List.length_drop]
              simp only [List.length_cons] at hl
              omega) c hc

lemma chunkGo_dropLast_full {T : Type} (size : Nat) (hs : 1 ≤ size)
    (l : List T) : ∀ c ∈ (chunkGo l size).dropLast, c.length = size :=
  chunkGo_dropLast_full_aux size hs l.length l le_rfl

/-- C1: for every sequence `s` and positive `size`, `Chunked` succeeds, the
chunks concatenate back to `s`, every chunk except possibly the last has
length exactly `size`, every chunk has length between 1 and `size`, and an
empty input yields an empty sequence of chunks. -/
theorem chunked_spec (T : Type) (s : List T) (size : Int) (hsize : 0 < size) :
    ∃ cs : List (List T),
      Chunked s size = .ok cs
      ∧ cs.flatten = s
      ∧ (∀ c ∈ cs.dropLast, c.length = size.toNat)
      ∧ (∀ c ∈ cs, 1 ≤ c.length ∧ c.length ≤ size.toNat)
      ∧ (s = [] → cs = []) := by
  have hpos : 1 ≤ size.toNat := by omega
  refine ⟨chunkGo s size.toNat, ?_, chunkGo_flatten size.toNat hpos s,
    chunkGo_dropLast_full size.toNat hpos s,
    chunkGo_chunk_bounds size.toNat hpos s, ?_⟩
  · rw [Chunked, if_neg (by omega)]
  · rintro rfl; simp [chunkGo]

/-- Witness for C1 at `s = [1,2,3,4,5]`, `size = 2`. -/
theorem chunked_spec_witness :
    (0 : Int) < 2
    ∧ ∃ cs : List (List Nat),
        Chunked [1, 2, 3, 4, 5] 2 = .ok cs
        ∧ cs.flatten = [1, 2, 3, 4, 5]
        ∧ (∀ c ∈ cs.dropLast, c.length = (2 : Int).toNat)
        ∧ (∀ c ∈ cs, 1 ≤ c.length ∧ c.length ≤ (2 : Int).toNat)
        ∧ (([1, 2, 3, 4, 5] : List Nat) = [] → cs = []) :=
  ⟨by decide, chunked_spec Nat [1, 2, 3, 4, 5] 2 (by decide)⟩

/-- Model of `Fold` from slice.go: left-to-right accumulation starting from the given
initial value. -/
def Fold {T R : Type} : List T → R → (R → T → R) → R
  | [], acc, _ => acc
  | e :: rest, acc, fn => Fold rest (fn acc e) fn

/-- Model of `Fold` with the combining closure modelled as state-threaded
(`σ → R → T → R × σ`), so that invocation counts are expressible; same
control flow as `Fold`. -/
def FoldTrace {T R σ : Type} : List T → R → (σ → R → T → R × σ) → σ → R × σ
  | [], acc, _, st => (acc, st)
  | e :: rest, acc, fn, st =>
      let p := fn st acc e
      FoldTrace rest p.1 fn p.2

/-- Model of `Reduce` from slice.go: a single-element slice returns its element;
otherwise `Fold(s[1:], s[0], fn)`.  On an empty slice the Go code evaluates
`s[1:]` and `s[0]`, which both fault at runtime (modelled as the
index-out-of-range panic). -/
def Reduce {T : Type} (s : List T) (fn : T → T → T) : Except String T :=
  match s with
  | [] => .error "index out of range"
  | [x] => .ok x
  | x :: xs => .ok (Fold xs x fn)

/-- Model of `Reduce` with a state-threaded combining closure; same control flow as
`Reduce`. -/
def ReduceTrace {T σ : Type} (s : List T) (fn : σ → T → T → T × σ) (st : σ) :
    Except String (T × σ) :=
  match s with
  | [] => .error "index out of range"
  | [x] => .ok (x, st)
  | x :: xs => .ok (FoldTrace xs x fn st)

/-- The loop of `ReduceIndexed` from slice.go: iterates over `s[1:]` with
range index `i` starting at 0, combining with `fn (i+1) acc e`; the `i`
parameter below is the already-shifted index, started at 1 by the caller. -/
def reduceIndexedLoop {T : Type} : List T → Nat → T → (Nat → T → T → T) → T
  | [], _, acc, _ => acc
  | e :: rest, i, acc, fn => reduceIndexedLoop rest (i + 1) (fn i acc e) fn

/-- Model of `ReduceIndexed` from slice.go: like `Reduce` but the combiner also
receives the element's index. -/
def ReduceIndexed {T : Type} (s : List T) (fn : Nat → T → T → T) :
    Except String T :=
  match s with
  | [] => .error "index out of range"
  | [x] => .ok x
  | x :: xs => .ok (reduceIndexedLoop xs 1 x fn)

/-- The `ReduceIndexed` loop with a state-threaded combining closure. -/
def reduceIndexedLoopTrace {T σ : Type} :
    List T → Nat → T → (σ → Nat → T → T → T × σ) → σ → T × σ
  | [], _, acc, _, st => (acc, st)
  | e :: rest, i, acc, fn, st =>
      let p := fn st i acc e
      reduceIndexedLoopTrace rest (i + 1) p.1 fn p.2

/-- Model of `ReduceIndexed` with a state-threaded combining closure; same control
flow as `ReduceIndexed`. -/
def ReduceIndexedTrace {T σ : Type} (s : List T)
    (fn : σ → Nat → T → T → T × σ) (st : σ) : Except String (T × σ) :=
  match s with
  | [] => .error "index out of range"
  | [x] => .ok (x, st)
  | x :: xs => .ok (reduceIndexedLoopTrace xs 1 x fn st)

lemma foldTrace_fst {T R σ : Type} :
    ∀ (s : List T) (acc : R) (fn : R → T → R) (st : σ),
      (FoldTrace s acc (fun st2 a e => (fn a e, st2)) st).1 = Fold s acc fn
  | [], _, _, _ => rfl
  | e :: rest, acc, fn, st => foldTrace_fst rest (fn acc e) fn st

/-- The state-threaded `ReduceTrace` refines `Reduce`: with a stateless
combiner the value components agree. -/
lemma reduceTrace_refines {T σ : Type} (s : List T) (fn : T → T → T) (st : σ) :
    (ReduceTrace s (fun st2 a e => (fn a e, st2)) st).map Prod.fst =
      Reduce s fn := by
  match s with
  | [] => rfl
  | [x] => rfl
  | x :: y :: xs =>
      simp [ReduceTrace, Reduce, Except.map, foldTrace_fst]

/-- C5: `Reduce` and `ReduceIndexed` fail (index-out-of-range panic, the
spec's EmptyInputError) on an empty sequence; on a single-element sequence
they return that element without invoking the combining function — for every
state type, state-threaded combiner and initial state, the state comes back
unchanged, which is only possible if the combiner was never invoked. -/
theorem reduce_empty_single_spec (T σ : Type) (fn : T → T → T)
    (fnI : Nat → T → T → T) (a : T) (g : σ → T → T → T × σ)
    (gI : σ → Nat → T → T → T × σ) (st : σ) :
    Reduce ([] : List T) fn = .error "index out of range"
    ∧ ReduceIndexed ([] : List T) fnI = .error "index out of range"
    ∧ ReduceTrace [a] g st = .ok (a, st)
    ∧ ReduceIndexedTrace [a] gI st = .ok (a, st)
    ∧ Reduce [a] fn = .ok a
    ∧ ReduceIndexed [a] fnI = .ok a :=
  ⟨rfl, rfl, rfl, rfl, rfl, rfl⟩

/-- Model of `MapEx` from map_ex.go: a struct owning a key-value mapping.  The Go
`map[K]V` is modelled as an association list in which an insert prepends,
so a lookup finds the most recent binding. -/
structure MapEx (K V : Type) where
  data : List (K × V)

/-- Model of `NewMapEx` from map_ex.go: a fresh instance with an empty mapping. -/
def NewMapEx (K V : Type) : MapEx K V := ⟨[]⟩

/-- The `val, ok := m.data[key]` read of map_ex.go. -/
def MapEx.get? {K V : Type} [DecidableEq K] (m : MapEx K V) (key : K) :
    Option V :=
  m.data.lookup key

/-- Model of `GetOrPut` from map_ex.go: if the key is present return the stored value
(the compute closure is not invoked, so the state is untouched); otherwise
invoke the closure once, store its result under the key and return it.  The
method mutates the receiver, so it returns the updated `MapEx`; the compute
closure `defaultValue` is state-threaded (Go `func() V` may close over
state). -/
def MapEx.GetOrPut {K V σ : Type} [DecidableEq K] (m : MapEx K V) (key : K)
    (defaultValue : σ → V × σ) (st : σ) : V × MapEx K V × σ :=
  match m.get? key with
  | some val => (val, m, st)
  | none =>
      let p := defaultValue st
      (p.1, ⟨(key, p.1) :: m.data⟩, p.2)

/-- C2: on a fresh `MapEx`, `GetOrPut k f1` followed by `GetOrPut k f2`
invokes `f1` exactly once and `f2` not at all (the two counters threaded
through the calls end at (1, 0)), and both calls return `f1 ()`'s result.
In general, a `GetOrPut` for a stored key returns the stored value and does
not invoke the compute closure (any state comes back unchanged), and after
any `GetOrPut` the key holds the returned value — so the compute closure for
a fixed key runs at most once over the table's lifetime. -/
theorem memoTable_getOrPut_spec (K V : Type) [DecidableEq K] (k : K)
    (f1 f2 : Unit → V) :
    ((NewMapEx K V).GetOrPut k
        (fun n : Nat × Nat => (f1 (), (n.1 + 1, n.2))) (0, 0)).1 = f1 ()
    ∧ (((NewMapEx K V).GetOrPut k
          (fun n : Nat × Nat => (f1 (), (n.1 + 1, n.2))) (0, 0)).2.1.GetOrPut k
        (fun n : Nat × Nat => (f2 (), (n.1, n.2 + 1)))
        ((NewMapEx K V).GetOrPut k
          (fun n : Nat × Nat => (f1 (), (n.1 + 1, n.2))) (0, 0)).2.2).1 = f1 ()
    ∧ (((NewMapEx K V).GetOrPut k
          (fun n : Nat × Nat => (f1 (), (n.1 + 1, n.2))) (0, 0)).2.1.GetOrPut k
        (fun n : Nat × Nat => (f2 (), (n.1, n.2 + 1)))
        ((NewMapEx K V).GetOrPut k
          (fun n : Nat × Nat => (f1 (), (n.1 + 1, n.2))) (0, 0)).2.2).2.2 = (1, 0)
    ∧ (∀ (σ : Type) (m : MapEx K V) (v : V) (compute : σ → V × σ) (st : σ),
        m.get? k = some v → m.GetOrPut k compute st = (v, m, st))
    ∧ (∀ (σ : Type) (m : MapEx K V) (compute : σ → V × σ) (st : σ),
        (m.GetOrPut k compute st).2.1.get? k = some (m.GetOrPut k compute st).1) := by
  have hfresh : (NewMapEx K V).get? k = none := rfl
  have hstep1 : (NewMapEx K V).GetOrPut k
      (fun n : Nat × Nat => (f1 (), (n.1 + 1, n.2))) (0, 0)
      = (f1 (), ⟨[(k, f1 ())]⟩, (1, 0)) := by
    rw [MapEx.GetOrPut, hfresh]
    exact rfl
  have hlook : (MapEx.mk [(k, f1 ())]).get? k = some (f1 ()) := by
    simp [MapEx.get?, List.lookup]
  refine ⟨by rw [hstep1], ?_, ?_, ?_, ?_⟩
  · rw [hstep1]
    simp only [MapEx.GetOrPut, hlook]
  · rw [hstep1]
    simp only [MapEx.GetOrPut, hlook]
  · intro σ m v compute st hm
    rw [MapEx.GetOrPut, hm]
  · intro σ m compute st
    rw [MapEx.GetOrPut]
    match hm : m.get? k with
    | some v => simp [hm]
    | none => simp [MapEx.get?, List.lookup]

/-- Witness for C2's conditional parts at `K = V = Nat`, `k = 3`, stored
value 7. -/
theorem memoTable_getOrPut_spec_witness :
    (MapEx.mk [(3, 7)] : MapEx Nat Nat).get? 3 = some 7
    ∧ (MapEx.mk [(3, 7)] : MapEx Nat Nat).GetOrPut 3
        (fun n : Nat => (9, n + 1)) 0 = (7, MapEx.mk [(3, 7)], 0) :=
  ⟨by decide,
    (memoTable_getOrPut_spec Nat Nat 3 (fun _ => 7) (fun _ => 9)).2.2.2.1
      Nat (MapEx.mk [(3, 7)]) 7 (fun n => (9, n + 1)) 0 (by decide)⟩

/-- Go element access `s[i]`: faults (runtime panic) when `i` is out of
range. -/
def goIndex {T : Type} (s : List T) (i : Int) : Except String T :=
  if h : 0 ≤ i ∧ i.toNat < s.length then .ok (s.get ⟨i.toNat, h.2⟩)
  else .error "index out of range"

/-- The inner loop of `Windowed` from slice.go: `for i := start; i < end;
i++ \x7b sub = append(sub, s[i]) \x7d`, collecting `max(end-start, 0)`
elements starting at index `start`; the second argument below is that
count. -/
def collectWindow {T : Type} (s : List T) : Int → Nat → Except String (List T)
  | _, 0 => .ok []
  | i, n + 1 =>
      match goIndex s i with
      | .error m => .error m
      | .ok x =>
          match collectWindow s (i + 1) n with
          | .error m => .error m
          | .ok rest => .ok (x :: rest)

/-- The `updateEnd`/`updateStart` capping of Windowed from slice.go:
`if v >= sz \x7b v = sz \x7d`. -/
def goMinCap (sz v : Int) : Int := if v ≥ sz then sz else v

/-- The main loop of `Windowed` from slice.go, with explicit fuel.  Each
iteration emits the window `s[start:end)` with
`end = goMinCap len (start+size)`, advances `start` to
`goMinCap len (start+step)`, recomputes `end`, and stops when the new
`start` equals the new `end`.  `none` means the fuel ran out, i.e. the Go
loop did not terminate within the bound. -/
def windowedLoop {T : Type} (s : List T) (size step : Int) :
    Int → Nat → Option (Except String (List (List T)))
  | _, 0 => none
  | start, fuel + 1 =>
      match collectWindow s start
          (goMinCap (s.length : Int) (start + size) - start).toNat with
      | .error m => some (.error m)
      | .ok w =>
          if goMinCap (s.length : Int) (start + step)
              = goMinCap (s.length : Int)
                  (goMinCap (s.length : Int) (start + step) + size) then
            some (.ok [w])
          else
            match windowedLoop s size step
                (goMinCap (s.length : Int) (start + step)) fuel with
            | none => none
            | some (.error m) => some (.error m)
            | some (.ok ws) => some (.ok (w :: ws))

/-- Model of `Windowed` from slice.go: an empty slice yields an empty result,
otherwise the main loop runs from `start = 0`.  The fuel `s.length + 1`
exceeds the iteration count of every terminating execution of the Go loop
(at most `s.length` iterations when `step ≥ 1`, one when `size = 0`), so
`none` is returned exactly when the Go loop diverges. -/
def Windowed {T : Type} (s : List T) (size step : Int) :
    Option (Except String (List (List T))) :=
  if s.length = 0 then some (.ok [])
  else windowedLoop s size step 0 (s.length + 1)

/-- C3, counterexample to the claimed window count: on `[1..10]` with
`size = 5`, `step = 3` the code produces 4 windows (matching the spec's own
worked example and the repository's tests), but the claimed formula
`ceil(max(len(s) - size, 0)/step) + 1` gives `ceil(5/3) + 1 = 3`. -/
theorem windowed_count_formula_counterexample :
    Windowed [1, 2, 3, 4, 5, 6, 7, 8, 9, 10] (5 : Int) 3
      = some (.ok [[1, 2, 3, 4, 5], [4, 5, 6, 7, 8], [7, 8, 9, 10], [10]])
    ∧ ([[1, 2, 3, 4, 5], [4, 5, 6, 7, 8], [7, 8, 9, 10], [10]] :
        List (List Nat)).length = 4
    ∧ (max (10 - 5) 0 + 3 - 1) / 3 + 1 = 3
    ∧ ¬ (([[1, 2, 3, 4, 5], [4, 5, 6, 7, 8], [7, 8, 9, 10], [10]] :
        List (List Nat)).length = (max (10 - 5) 0 + 3 - 1) / 3 + 1) :=
  ⟨rfl, rfl, rfl, by decide⟩

lemma windowedLoop_step_zero_diverges :
    ∀ fuel : Nat, windowedLoop [1, 2, 3] (1 : Int) 0 0 fuel = none := by
  intro fuel
  induction fuel with
  | zero => rfl
  | succ n ih =>
      rw [windowedLoop,
        show goMinCap ((([1, 2, 3] : List Nat).length : Int)) (0 + 0) = 0 from rfl,
        ih]
      rfl

/-- C4: the code validates only `Chunked` — `Windowed` has no check of
`size` or `step`.  `Chunked` with `size = 0` panics as specified, but
`Windowed [1,2,3]` with `size = 0, step = 1` returns a single empty window
normally instead of failing, and with `size = 1, step = 0` its loop never
terminates for any amount of fuel. -/
theorem windowed_no_validation :
    Windowed [1, 2, 3] (0 : Int) 1 = some (.ok [[]])
    ∧ Chunked [1, 2, 3] (0 : Int) = .error "chunkSize must be positive"
    ∧ ∀ fuel : Nat, windowedLoop [1, 2, 3] (1 : Int) 0 0 fuel = none :=
  ⟨rfl, rfl, windowedLoop_step_zero_diverges⟩

lemma goMinCap_natCast (a b : Nat) :
    goMinCap (a : Int) (b : Int) = ((min a b : Nat) : Int) := by
  rw [goMinCap]
  split <;> rename_i h <;> push_cast <;> omega

lemma goIndex_ok {T : Type} (s : List T) (i : Nat) (h : i < s.length) :
    goIndex s (i : Int) = .ok (s.get ⟨i, h⟩) := by
  have hc : 0 ≤ (i : Int) ∧ ((i : Int)).toNat < s.length := by
    exact ⟨Int.natCast_nonneg i, by simpa using h⟩
  rw [goIndex, dif_pos hc]
  rfl

lemma collectWindow_ok {T : Type} (s : List T) :
    ∀ (n start : Nat), start + n ≤ s.length →
      collectWindow s (start : Int) n = .ok ((s.drop start).take n) := by
  intro n
  induction n with
  | zero => intro start _; simp [collectWindow]
  | succ n ih =>
      intro start hle
      have hlt : start < s.length := by omega
      rw [collectWindow, goIndex_ok s start hlt]
      rw [show (start : Int) + 1 = ((start + 1 : Nat) : Int) by push_cast; ring]
      rw [ih (start + 1) (by omega)]
      rw [List.drop_eq_getElem_cons hlt, List.take_succ_cons]
      rfl

lemma windowedLoop_ok {T : Type} (s : List T) (size step : Nat)
    (hsize : 1 ≤ size) (hstep : 1 ≤ step) :
    ∀ (fuel start : Nat), start < s.length →
      (s.length - start + step - 1) / step ≤ fuel →
      windowedLoop s (size : Int) (step : Int) (start : Int) fuel
        = some (.ok ((List.range ((s.length - start + step - 1) / step)).map
            (fun k => (s.drop (start + k * step)).take size))) := by
  intro fuel
  induction fuel with
  | zero =>
      intro start hstart hcnt
      exfalso
      have h1 : 1 ≤ (s.length - start + step - 1) / step := by
        rw [Nat.one_le_div_iff hstep]
        omega
      omega
  | succ fuel ih =>
      intro start hstart hcnt
      rw [windowedLoop]
      have he : goMinCap (s.length : Int) ((start : Int) + (size : Int))
          = ((min s.length (start + size) : Nat) : Int) := by
        rw [show (start : Int) + (size : Int) = ((start + size : Nat) : Int) by
          push_cast; ring]
        exact goMinCap_natCast s.length (start + size)
      rw [he]
      have htn : (((min s.length (start + size) : Nat) : Int) - (start : Int)).toNat
          = min (s.length - start) size := by omega
      rw [htn]
      rw [collectWindow_ok s (min (s.length - start) size) start (by omega)]
      have hw : (s.drop start).take (min (s.length - start) size)
          = (s.drop start).take size := by
        rcases Nat.le_total size (s.length - start) with h | h
        · rw [Nat.min_eq_right h]
        · rw [Nat.min_eq_left h,
            List.take_of_length_le (by simp [List.length_drop]),
            List.take_of_length_le (by simp [List.length_drop]; omega)]
      rw [hw]
      dsimp only
      have hs2 : goMinCap (s.length : Int) ((start : Int) + (step : Int))
          = ((min s.length (start + step) : Nat) : Int) := by
        rw [show (start : Int) + (step : Int) = ((start + step : Nat) : Int) by
          push_cast; ring]
        exact goMinCap_natCast s.length (start + step)
      rw [hs2]
      have he2 : goMinCap (s.length : Int)
          (((min s.length (start + step) : Nat) : Int) + (size : Int))
          = ((min s.length (min s.length (start + step) + size) : Nat) : Int) := by
        rw [show ((min s.length (start + step) : Nat) : Int) + (size : Int)
            = ((min s.length (start + step) + size : Nat) : Int) by push_cast; ring]
        exact goMinCap_natCast _ _
      rw [he2]
      by_cases hbreak : s.length ≤ start + step
      · rw [Nat.min_eq_left hbreak]
        rw [if_pos (by
          rw [Nat.min_eq_left (by omega)])]
        have hcnt1 : (s.length - start + step - 1) / step = 1 := by
          have hrw : s.length - start + step - 1 = (s.length - start - 1) + step := by
            omega
          rw [hrw, Nat.add_div_right _ (by omega), Nat.div_eq_of_lt (by omega)]
        rw [hcnt1, show List.range 1 = [0] from rfl, List.map_singleton,
          Nat.zero_mul, Nat.add_zero]
      · push_neg at hbreak
        rw [Nat.min_eq_right (by omega)]
        rw [if_neg (by
          intro hcon
          have hcon2 : start + step = s.length ⊓ (start + step + size) := by
            exact_mod_cast hcon
          omega)]
        have hcnt_succ : (s.length - start + step - 1) / step
            = (s.length - (start + step) + step - 1) / step + 1 := by
          have hrw : s.length - start + step - 1
              = (s.length - (start + step) + step - 1) + step := by omega
          rw [hrw, Nat.add_div_right _ (by omega)]
        rw [ih (start + step) (by omega) (by omega)]
        dsimp only
        rw [hcnt_succ, List.range_succ_eq_map, List.map_cons, List.map_map]
        have hf0 : (s.drop (start + 0 * step)).take size
            = (s.drop start).take size := by
          rw [Nat.zero_mul, Nat.add_zero]
        rw [hf0]
        have hfs : (List.range ((s.length - (start + step) + step - 1) / step)).map
              ((fun k => (s.drop (start + k * step)).take size) ∘ Nat.succ)
            = (List.range ((s.length - (start + step) + step - 1) / step)).map
              (fun k => (s.drop (start + step + k * step)).take size) := by
          refine List.map_congr_left ?_
          intro k _
          simp only [Function.comp_apply]
          rw [show start + Nat.succ k * step = start + step + k * step by
            rw [Nat.succ_mul]; omega]
        rw [hfs]

/-- C3 (amended): for `size > 0` and `step > 0`, every window of
`Windowed s size step` has length `min(size, len(s) - its start index)` —
the k-th window starting at `k*step` — and the number of windows equals
`ceil(len(s)/step)` when `len(s) > 0` (not the claimed
`ceil(max(len(s)-size,0)/step) + 1`), and `0` when `s` is empty. -/
theorem windowed_spec (T : Type) (s : List T) (size step : Int)
    (hsize : 0 < size) (hstep : 0 < step) :
    ∃ ws : List (List T),
      Windowed s size step = some (.ok ws)
      ∧ ws.length = (s.length + step.toNat - 1) / step.toNat
      ∧ (∀ k, ∀ hk : k < ws.length,
          ws.get ⟨k, hk⟩ = (s.drop (k * step.toNat)).take size.toNat)
      ∧ (∀ k, ∀ hk : k < ws.length,
          (ws.get ⟨k, hk⟩).length = min size.toNat (s.length - k * step.toNat))
      ∧ (s = [] → ws = []) := by
  have hstepN : 1 ≤ step.toNat := by omega
  have hsizeN : 1 ≤ size.toNat := by omega
  by_cases hnil : s.length = 0
  · refine ⟨[], ?_, ?_, ?_, ?_, fun _ => rfl⟩
    · rw [Windowed, if_pos hnil]
    · rw [hnil, List.length_nil, Nat.zero_add, Nat.div_eq_of_lt (by omega)]
    · intro k hk; exact absurd hk (by simp)
    · intro k hk; exact absurd hk (by simp)
  · have hfuel : (s.length - 0 + step.toNat - 1) / step.toNat ≤ s.length + 1 := by
      calc (s.length - 0 + step.toNat - 1) / step.toNat
          ≤ (s.length + step.toNat) / step.toNat := Nat.div_le_div_right (by omega)
        _ = s.length / step.toNat + 1 := Nat.add_div_right _ (by omega)
        _ ≤ s.length + 1 := by have := Nat.div_le_self s.length step.toNat; omega
    refine ⟨(List.range ((s.length - 0 + step.toNat - 1) / step.toNat)).map
      (fun k => (s.drop (0 + k * step.toNat)).take size.toNat), ?_, ?_, ?_, ?_, ?_⟩
    · rw [Windowed, if_neg hnil]
      rw [show size = ((size.toNat : Nat) : Int) by omega,
        show step = ((step.toNat : Nat) : Int) by omega,
        show (0 : Int) = ((0 : Nat) : Int) from rfl]
      exact windowedLoop_ok s size.toNat step.toNat hsizeN hstepN
        (s.length + 1) 0 (by omega) hfuel
    · simp
    · intro k hk
      simp only [List.get_eq_getElem, List.getElem_map, List.getElem_range,
        Nat.zero_add]
    · intro k hk
      simp only [List.get_eq_getElem, List.getElem_map, List.getElem_range,
        Nat.zero_add, List.length_take, List.length_drop]
    · intro h
      exact absurd (by rw [h]; rfl) hnil

/-- Witness for C3 (amended) at `s = [1..10]`, `size = 5`, `step = 3`. -/
theorem windowed_spec_witness :
    (0 : Int) < 5 ∧ (0 : Int) < 3
    ∧ ∃ ws : List (List Nat),
        Windowed [1, 2, 3, 4, 5, 6, 7, 8, 9, 10] (5 : Int) 3 = some (.ok ws)
        ∧ ws.length = (([1, 2, 3, 4, 5, 6, 7, 8, 9, 10] : List Nat).length
            + (3 : Int).toNat - 1) / (3 : Int).toNat
        ∧ (∀ k, ∀ hk : k < ws.length,
            ws.get ⟨k, hk⟩ = (([1, 2, 3, 4, 5, 6, 7, 8, 9, 10] : List Nat).drop
              (k * (3 : Int).toNat)).take (5 : Int).toNat)
        ∧ (∀ k, ∀ hk : k < ws.length,
            (ws.get ⟨k, hk⟩).length = min (5 : Int).toNat
              (([1, 2, 3, 4, 5, 6, 7, 8, 9, 10] : List Nat).length
                - k * (3 : Int).toNat))
        ∧ (([1, 2, 3, 4, 5, 6, 7, 8, 9, 10] : List Nat) = [] → ws = []) :=
  ⟨by decide, by decide,
    windowed_spec Nat [1, 2, 3, 4, 5, 6, 7, 8, 9, 10] 5 3 (by decide) (by decide)⟩

/-- Witness for C7 at the spec's worked example: strictly-increasing runs of
`[10,20,30,40,31,31,33,34,21,22,23,24,11,12,13,14]`. -/
theorem chunkedBy_spec_witness :
    ChunkedBy [10, 20, 30, 40, 31, 31, 33, 34, 21, 22, 23, 24, 11, 12, 13, 14]
        (fun a b => decide (a < b))
      = [[10, 20, 30, 40], [31], [31, 33, 34], [21, 22, 23, 24], [11, 12, 13, 14]]
    ∧ (ChunkedBy [10, 20, 30, 40, 31, 31, 33, 34, 21, 22, 23, 24, 11, 12, 13, 14]
        (fun a b => decide (a < b))).flatten
      = [10, 20, 30, 40, 31, 31, 33, 34, 21, 22, 23, 24, 11, 12, 13, 14] :=
  ⟨by decide,
    (chunkedBy_spec Nat
      [10, 20, 30, 40, 31, 31, 33, 34, 21, 22, 23, 24, 11, 12, 13, 14]
      (fun a b => decide (a < b))).1⟩

/-- Witness for C9 at the slice.go example `[3,1,2,3,2,1]`. -/
theorem distinct_spec_witness :
    Distinct [3, 1, 2, 3, 2, 1] = [3, 1, 2]
    ∧ (Distinct [3, 1, 2, 3, 2, 1]).Nodup
    ∧ (Distinct [3, 1, 2, 3, 2, 1]).length ≤ ([3, 1, 2, 3, 2, 1] : List Nat).length :=
  ⟨by decide, (distinct_spec Nat [3, 1, 2, 3, 2, 1]).1,
    (distinct_spec Nat [3, 1, 2, 3, 2, 1]).2.2.2.2⟩

/-- Witness for C10 at `s = [2,4,5,6]` with the evenness predicate. -/
theorem takeWhile_dropWhile_spec_witness :
    TakeWhile [2, 4, 5, 6] (fun x => x % 2 == 0) = [2, 4]
    ∧ DropWhile [2, 4, 5, 6] (fun x => x % 2 == 0) = [5, 6]
    ∧ TakeWhile [2, 4, 5, 6] (fun x => x % 2 == 0)
        ++ DropWhile [2, 4, 5, 6] (fun x => x % 2 == 0) = [2, 4, 5, 6] :=
  ⟨by decide, by decide,
    (takeWhile_dropWhile_spec Nat [2, 4, 5, 6] (fun x => x % 2 == 0)).1⟩

end GoDeLin
